import Mathlib

/-!
Verification of the pixel-level rendering core of `streamdeck-render`
(`src/canvas.rs`, `src/border.rs`, `src/layout.rs`, `src/color.rs`).

Modelling conventions:
* `u8` channel values are `ℕ` (validity `≤ 255` is stated as a hypothesis
  where a claim needs it, mirroring the `u8` type invariant);
* `f32` arithmetic is modelled exactly over `ℚ` (the code's formulas are
  plain field arithmetic, so `ℚ` is the exact-arithmetic reading), except
  `f32::hypot` inside `rrect_sdf`, which needs a square root and is
  modelled over `ℝ`;
* `f32::round` rounds half away from zero; every rounded quantity in the
  code is nonnegative, where this agrees with Mathlib's `round` (half up);
* the `as u8` cast of a rounded `f32` saturates to `[0, 255]`.
-/

namespace Render

-- ════ definitions (embedded from the source) ════

/-- RGBA color with unpremultiplied 8-bit channels, from `src/color.rs`
(`Color { r, g, b, a : u8 }`). Channels are modelled as `ℕ`. -/
structure Color where
  r : ℕ
  g : ℕ
  b : ℕ
  a : ℕ
  deriving DecidableEq, Repr

/-- Channel validity: the `u8` type invariant of the Rust `Color`. -/
def Color.Valid (c : Color) : Prop :=
  c.r ≤ 255 ∧ c.g ≤ 255 ∧ c.b ≤ 255 ∧ c.a ≤ 255

instance (c : Color) : Decidable c.Valid := by
  unfold Color.Valid; infer_instance

/-- One RGBA destination pixel (`image::Rgba<u8>` in the Rust code). -/
structure Pixel where
  r : ℕ
  g : ℕ
  b : ℕ
  a : ℕ
  deriving DecidableEq, Repr

/-- Channel validity: the `u8` type invariant of `Rgba<u8>`. -/
def Pixel.Valid (p : Pixel) : Prop :=
  p.r ≤ 255 ∧ p.g ≤ 255 ∧ p.b ≤ 255 ∧ p.a ≤ 255

instance (p : Pixel) : Decidable p.Valid := by
  unfold Pixel.Valid; infer_instance

/-- Cast of a nonnegative-rounded `f32` to `u8` (`(x).round() as u8`):
round half away from zero (half up on the nonnegative values the code
produces), then saturate into the byte range. -/
def u8round (q : ℚ) : ℕ :=
  min (round q).toNat 255

/-- Porter-Duff "source over destination" compositing, from
`composite_over` in `src/canvas.rs` lines 297-316. `srcAlpha` is the
pre-multiplied effective alpha of the source, already in `[0,1]`.
If `out_a ≤ 0` the destination pixel is returned unchanged. -/
def composite_over (dst : Pixel) (src_color : Color) (src_alpha : ℚ) : Pixel :=
  let dst_a : ℚ := (dst.a : ℚ) / 255
  let out_a : ℚ := src_alpha + dst_a * (1 - src_alpha)
  if out_a ≤ 0 then dst
  else
    let blend : ℕ → ℕ → ℕ := fun src_c dst_c =>
      u8round (((src_c : ℚ) / 255 * src_alpha + (dst_c : ℚ) / 255 * dst_a * (1 - src_alpha))
        / out_a * 255)
    { r := blend src_color.r dst.r
      g := blend src_color.g dst.g
      b := blend src_color.b dst.b
      a := u8round (out_a * 255) }

/-- Conversion of a `Color` to the pixel the code stores for it
(`Rgba([color.r, color.g, color.b, color.a])`). -/
def colorPixel (c : Color) : Pixel :=
  ⟨c.r, c.g, c.b, c.a⟩

/-- Buffer-wide fill, from `Canvas::fill` in `src/canvas.rs` lines 123-127:
every pixel of the buffer is *assigned* the color. The canvas pixel buffer
is modelled as the list of its pixels. -/
def fill (color : Color) (buf : List Pixel) : List Pixel :=
  buf.map (fun _ => colorPixel color)

/-- Modelled from the spec: the behaviour claim C1 ascribes to `fill`,
namely compositing the color Porter-Duff "over" every existing pixel at
the color's own alpha (as the other drawing calls do). Defined for
comparison with the source-derived `fill`. -/
def specFillOver (color : Color) (buf : List Pixel) : List Pixel :=
  buf.map (fun p => composite_over p color ((color.a : ℚ) / 255))

/-- Clamp of Rust `f32::clamp(lo, hi)` for `lo ≤ hi`, over `ℚ`. -/
def qclamp (x lo hi : ℚ) : ℚ :=
  min (max x lo) hi

/-- Cubic smoothstep from `smoothstep` in `src/border.rs` lines 71-74:
`t' = clamp((t−edge0)/(edge1−edge0), 0, 1); result = t'·t'·(3−2·t')`. -/
def smoothstep (edge0 edge1 t : ℚ) : ℚ :=
  let t' := qclamp ((t - edge0) / (edge1 - edge0)) 0 1
  t' * t' * (3 - 2 * t')

-- ── layout engine (`src/layout.rs`) ────────────────────────────────────

/-- Metrics of a font bound to a fixed scale: the external glyph-metrics
provider of the spec's §6 (the `ScaleFont` view `as_scaled(scale)` of an
`ab_glyph` font). Glyph ids are identified with the characters that look
them up. -/
structure ScaledFont where
  ascent : ℚ
  descent : ℚ
  line_gap : ℚ
  h_advance : Char → ℚ
  kern : Char → Char → ℚ

/-- Handle to a loaded font (`FontHandle` in `src/font.rs`), modelled by
what the core reads from it: its scaled-metrics view at each scale. -/
def FontHandle : Type := ℚ → ScaledFont

/-- Accumulator run of `measure_line`, from `src/layout.rs` lines 37-52:
sum of horizontal advances plus kerning against the previous glyph. -/
def measure_line (font : FontHandle) (scale_px : ℚ) (text : String) : ℚ :=
  let sf := font scale_px
  (text.data.foldl
    (fun (acc : ℚ × Option Char) ch =>
      (acc.1 + (match acc.2 with | some prev => sf.kern prev ch | none => 0)
         + sf.h_advance ch,
       some ch))
    (0, none)).1

/-- A laid-out line with its pre-measured pixel width (`TextLine` in
`src/layout.rs`). -/
structure TextLine where
  text : String
  width_px : ℚ
  deriving DecidableEq, Repr

/-- Wrapping options (`WrapOptions` in `src/layout.rs`). -/
structure WrapOptions where
  max_width : ℚ
  max_lines : ℕ
  deriving DecidableEq, Repr

/-- Splitting of a character list on whitespace into nonempty words:
model of Rust `str::split_whitespace` used by `wrap_text`. `acc` holds
the characters of the word in progress, in reverse. -/
def wordsAux : List Char → List Char → List String
  | [], acc => if acc.isEmpty then [] else [String.mk acc.reverse]
  | c :: cs, acc =>
    if c.isWhitespace then
      if acc.isEmpty then wordsAux cs []
      else String.mk acc.reverse :: wordsAux cs []
    else wordsAux cs (c :: acc)

/-- Whitespace split of a string (Rust `text.split_whitespace()`). -/
def splitWhitespace (s : String) : List String :=
  wordsAux s.data []

/-- Word loop of `wrap_text` (`src/layout.rs` lines 81-112): the `for`
loop over the words together with the final flush of the current line.
State: flushed `lines`, the `current` line text, its running width. -/
def wrap_loop (measure : String → ℚ) (opts : WrapOptions) (space_w : ℚ) :
    List TextLine → String → ℚ → List String → List TextLine
  | lines, current, current_w, [] =>
      if current = "" then lines else lines ++ [⟨current, current_w⟩]
  | lines, current, current_w, word :: ws =>
      let word_w := measure word
      if current = "" then
        wrap_loop measure opts space_w lines (current ++ word) word_w ws
      else if opts.max_lines ≤ lines.length + 1 then
        wrap_loop measure opts space_w lines (current ++ " " ++ word)
          (current_w + space_w + word_w) ws
      else if opts.max_width < current_w + space_w + word_w then
        wrap_loop measure opts space_w (lines ++ [⟨current, current_w⟩]) word word_w ws
      else
        wrap_loop measure opts space_w lines (current ++ " " ++ word)
          (current_w + space_w + word_w) ws

/-- Greedy word-wrap, from `wrap_text` in `src/layout.rs` lines 61-115. -/
def wrap_text (font : FontHandle) (scale_px : ℚ) (text : String)
    (opts : WrapOptions) : List TextLine :=
  if opts.max_lines = 0 then []
  else
    let words := splitWhitespace text
    if words = [] then []
    else
      wrap_loop (measure_line font scale_px) opts (measure_line font scale_px " ")
        [] "" 0 words

/-- Space-joined concatenation of a list of strings, used to state the
no-word-dropped property. -/
def joinWords : List String → String
  | [] => ""
  | [w] => w
  | w :: ws => w ++ " " ++ joinWords ws

/-- Concrete metrics provider for witnesses: every glyph advances 5px at
every scale, no kerning. -/
def unitFont : FontHandle :=
  fun _ => ⟨10, -2, 0, fun _ => 5, fun _ _ => 0⟩

-- ── text placement, SDF geometry and borders ────────────────────────

/-- Vertical alignment of the text block (`VAlign` in `src/canvas.rs`). -/
inductive VAlign where
  | top
  | center
  | bottom
  | baseline (y : ℚ)
  deriving DecidableEq, Repr

/-- Horizontal alignment of each line (`HAlign` in `src/canvas.rs`). -/
inductive HAlign where
  | left
  | center
  | right
  deriving DecidableEq, Repr

/-- Options controlling text rendering (`TextOptions` in `src/canvas.rs`). -/
structure TextOptions where
  font : FontHandle
  size : ℚ
  color : Color
  h_align : HAlign
  v_align : VAlign
  line_gap : ℚ

/-- Error enumeration from `src/error.rs`. External error payloads
(`std::io::Error`, `ab_glyph::InvalidFont`, `image::ImageError`) are
modelled by their message strings. -/
inductive RenderError where
  | fontNotFound (name : String)
  | fontLoadIoError (path : String) (msg : String)
  | fontParse (msg : String)
  | pngEncode (msg : String)
  deriving DecidableEq, Repr

/-- Per-line placement computed by `Canvas::draw_text`: the arguments it
hands to the rasterizing helper `draw_text_line` for one line. -/
structure Placement where
  baseline_y : ℚ
  start_x : ℚ
  text : String
  deriving DecidableEq, Repr

/-- Layout part of `Canvas::draw_text` (`src/canvas.rs` lines 133-184):
early `Ok(())` on empty input, else the first-baseline computation and
the per-line baseline/start-x loop. Glyph rasterization is the external
collaborator, so the model returns the placements passed to it; the
`Result` mirrors the source's `Result<(), RenderError>`. -/
def draw_text (canvas_w canvas_h : ℚ) (lines : List TextLine)
    (opts : TextOptions) : Except RenderError (List Placement) :=
  if lines = [] then .ok []
  else
    let sf := opts.font opts.size
    let ascent := sf.ascent
    let descent := sf.descent
    let font_line_gap := sf.line_gap
    let line_h := ascent - descent + font_line_gap + opts.line_gap
    let n : ℚ := (lines.length : ℚ)
    let total_h := ascent - descent + (n - 1) * line_h
    let first_baseline_y :=
      match opts.v_align with
      | .top => ascent
      | .center => (canvas_h - total_h) / 2 + ascent
      | .bottom => canvas_h - (total_h - ascent)
      | .baseline y => y
    .ok (lines.enum.map (fun p =>
      { baseline_y := first_baseline_y + (p.1 : ℚ) * line_h
        start_x :=
          match opts.h_align with
          | .left => 0
          | .center => (canvas_w - p.2.width_px) / 2
          | .right => canvas_w - p.2.width_px
        text := p.2.text }))

/-- Concrete text options used by witnesses. -/
def sampleOpts : TextOptions :=
  ⟨unitFont, 28, ⟨255, 255, 255, 255⟩, HAlign.center, VAlign.baseline 40, 0⟩

/-- Euclidean norm of a pair (`f32::hypot`). Modelled over `ℝ` because the
result is irrational in general. -/
noncomputable def hypot (x y : ℝ) : ℝ :=
  Real.sqrt (x ^ 2 + y ^ 2)

/-- Signed distance from `(px, py)` to the edge of the axis-aligned rounded
rectangle centered at `(cx, cy)` with half-extents `(hw, hh)` and corner
radius `r`, from `rrect_sdf` in `src/border.rs` lines 50-67. -/
noncomputable def rrect_sdf (px py cx cy hw hh r : ℝ) : ℝ :=
  let qx := |px - cx| - hw + r
  let qy := |py - cy| - hh + r
  hypot (max qx 0) (max qy 0) + max (min qx 0) (min qy 0) - r

/-- Per-pixel source alpha of the vignette border, extracted from the loop
body of `draw_vignette_border` in `src/canvas.rs` lines 259-289 as a
function of the pixel's SDF distance. The two `continue` guards
(`dist >= 1.0` and `inset > width`) leave the pixel untouched, i.e. apply
alpha `0`. `peak_alpha` is `color.a / 255`. -/
def vignette_alpha (width peak_alpha dist : ℚ) : ℚ :=
  if 1 ≤ dist then 0
  else
    let inset := -dist
    if width < inset then 0
    else
      let shape_aa := smoothstep 1 0 dist
      let t := qclamp (inset / width) 0 1
      let falloff := (1 - t) * (1 - t)
      peak_alpha * falloff * shape_aa

-- ════ theorems ════

-- ── compositor and smoothstep lemmas ───────────────────────────────────

theorem qclamp_mem (x lo hi : ℚ) (h : lo ≤ hi) :
    lo ≤ qclamp x lo hi ∧ qclamp x lo hi ≤ hi := by
  constructor
  · exact le_min (le_max_right x lo) h
  · exact min_le_right _ _

theorem qclamp_of_le (x : ℚ) (h : x ≤ 0) : qclamp x 0 1 = 0 := by
  unfold qclamp
  rw [max_eq_right h, min_eq_left (by norm_num)]

theorem qclamp_of_ge (x : ℚ) (h : 1 ≤ x) : qclamp x 0 1 = 1 := by
  unfold qclamp
  rw [max_eq_left (le_trans (by norm_num) h), min_eq_right h]

theorem u8round_natCast (n : ℕ) (h : n ≤ 255) : u8round (n : ℚ) = n := by
  unfold u8round
  rw [round_natCast]
  simp [h]

theorem smoothstep_def (e0 e1 t : ℚ) :
    smoothstep e0 e1 t =
      qclamp ((t - e0) / (e1 - e0)) 0 1 * qclamp ((t - e0) / (e1 - e0)) 0 1 *
        (3 - 2 * qclamp ((t - e0) / (e1 - e0)) 0 1) := rfl

theorem cubic_range (u : ℚ) (h0 : 0 ≤ u) (h1 : u ≤ 1) :
    0 ≤ u * u * (3 - 2 * u) ∧ u * u * (3 - 2 * u) ≤ 1 := by
  constructor
  · nlinarith [mul_nonneg h0 h0]
  · nlinarith [mul_nonneg (mul_nonneg (sub_nonneg.mpr h1) (sub_nonneg.mpr h1))
      (by linarith : (0:ℚ) ≤ 1 + 2 * u)]

/-- Blending at effective alpha `1` replaces the destination with the source
color at full opacity, for byte-valid source channels. -/
theorem composite_over_one_eq (dst : Pixel) (src : Color) (hsrc : src.Valid) :
    composite_over dst src 1 = ⟨src.r, src.g, src.b, 255⟩ := by
  obtain ⟨h1, h2, h3, h4⟩ := hsrc
  simp only [composite_over]
  have hcond : ¬ ((1 : ℚ) + (dst.a : ℚ) / 255 * (1 - 1) ≤ 0) := by norm_num
  rw [if_neg hcond]
  have hb : ∀ s d : ℕ, s ≤ 255 →
      u8round (((s : ℚ) / 255 * 1 + (d : ℚ) / 255 * ((dst.a : ℚ) / 255) * (1 - 1))
        / (1 + (dst.a : ℚ) / 255 * (1 - 1)) * 255) = s := by
    intro s d hs
    have : ((s : ℚ) / 255 * 1 + (d : ℚ) / 255 * ((dst.a : ℚ) / 255) * (1 - 1))
        / (1 + (dst.a : ℚ) / 255 * (1 - 1)) * 255 = (s : ℚ) := by
      field_simp
    rw [this, u8round_natCast s hs]
  have ha : u8round ((1 + (dst.a : ℚ) / 255 * (1 - 1)) * 255) = 255 := by
    have : ((1 : ℚ) + (dst.a : ℚ) / 255 * (1 - 1)) * 255 = ((255 : ℕ) : ℚ) := by norm_num
    rw [this, u8round_natCast 255 (by norm_num)]
  rw [hb src.r dst.r h1, hb src.g dst.g h2, hb src.b dst.b h3, ha]

/-- Blending at effective alpha `0` leaves a byte-valid destination pixel
unchanged. -/
theorem composite_over_zero_eq (dst : Pixel) (hdst : dst.Valid) :
    composite_over dst ⟨0, 0, 0, 0⟩ 0 = dst ∧
    ∀ src : Color, composite_over dst src 0 = dst := by
  obtain ⟨h1, h2, h3, h4⟩ := hdst
  have main : ∀ src : Color, composite_over dst src 0 = dst := by
    intro src
    simp only [composite_over]
    by_cases h0 : dst.a = 0
    · rw [if_pos (by rw [h0]; norm_num)]
    · have hpos : (0 : ℚ) < (dst.a : ℚ) / 255 := by
        have : (0 : ℚ) < (dst.a : ℚ) := by
          exact_mod_cast Nat.pos_of_ne_zero h0
        positivity
      rw [if_neg (by linarith)]
      have hb : ∀ s d : ℕ, d ≤ 255 →
          u8round (((s : ℚ) / 255 * 0 + (d : ℚ) / 255 * ((dst.a : ℚ) / 255) * (1 - 0))
            / (0 + (dst.a : ℚ) / 255 * (1 - 0)) * 255) = d := by
        intro s d hd
        have : ((s : ℚ) / 255 * 0 + (d : ℚ) / 255 * ((dst.a : ℚ) / 255) * (1 - 0))
            / (0 + (dst.a : ℚ) / 255 * (1 - 0)) * 255 = (d : ℚ) := by
          have hne : ((dst.a : ℚ)) ≠ 0 := by exact_mod_cast h0
          field_simp
          ring
        rw [this, u8round_natCast d hd]
      have ha : u8round ((0 + (dst.a : ℚ) / 255 * (1 - 0)) * 255) = dst.a := by
        have : ((0 : ℚ) + (dst.a : ℚ) / 255 * (1 - 0)) * 255 = ((dst.a : ℕ) : ℚ) := by
          field_simp
        rw [this, u8round_natCast dst.a h4]
      rw [hb src.r dst.r h1, hb src.g dst.g h2, hb src.b dst.b h3, ha]
  exact ⟨main _, main⟩

-- ── claim theorems ─────────────────────────────────────────────────────

/-- C1, counterexample: `Canvas::fill` does not composite the fill color
Porter-Duff "over" the existing pixels.  Filling a buffer holding one
opaque white pixel with half-transparent red `(255,0,0,128)` stores
`(255,0,0,128)` verbatim, while over-compositing that color at its own
alpha would give `(255,127,127,255)`. -/
theorem fill_is_not_over_compositing :
    fill ⟨255, 0, 0, 128⟩ [⟨255, 255, 255, 255⟩] ≠
      specFillOver ⟨255, 0, 0, 128⟩ [⟨255, 255, 255, 255⟩] := by
  intro h
  have h1 : fill ⟨255, 0, 0, 128⟩ [⟨255, 255, 255, 255⟩] = [⟨255, 0, 0, 128⟩] := rfl
  have h2 : specFillOver ⟨255, 0, 0, 128⟩ [⟨255, 255, 255, 255⟩] =
      [⟨255, 127, 127, 255⟩] := by
    simp only [specFillOver, composite_over, List.map]
    norm_num [u8round, round_eq]
    refine ⟨?_, ?_, ?_⟩ <;> decide
  rw [h1, h2] at h
  simp at h

/-- C1, amended: `Canvas::fill` *assigns* the color to every pixel of the
buffer (it is the one drawing call that replaces rather than composites);
replacement coincides with Porter-Duff "over" compositing of the fill
color exactly when that color is fully opaque. -/
theorem fill_assigns_color (color : Color) (buf : List Pixel) :
    fill color buf = buf.map (fun _ => colorPixel color) ∧
    (color.Valid → color.a = 255 → fill color buf = specFillOver color buf) := by
  refine ⟨rfl, fun hv ha => ?_⟩
  unfold fill specFillOver
  apply List.map_congr_left
  intro p _
  rw [show ((color.a : ℚ) / 255) = 1 by rw [ha]; norm_num]
  rw [composite_over_one_eq p color hv]
  unfold colorPixel
  rw [ha]

/-- C1 witness for the amended theorem, at an opaque fill color over a
one-pixel buffer. -/
theorem fill_assigns_color_witness :
    fill ⟨10, 20, 30, 255⟩ [⟨255, 255, 255, 255⟩] =
      specFillOver ⟨10, 20, 30, 255⟩ [⟨255, 255, 255, 255⟩] :=
  (fill_assigns_color ⟨10, 20, 30, 255⟩ [⟨255, 255, 255, 255⟩]).2
    (by constructor <;> norm_num) rfl

/-- C3, counterexample: the claim quantifies over *all* edges `e0`, `e1`,
but for reversed edges — which the code itself uses, e.g.
`smoothstep(1.0, 0.0, dist)` in `draw_solid_border` — the value at
`t ≤ e0` is not `0`: `smoothstep 1 0 0 = 1` although `0 ≤ e0 = 1`. -/
theorem smoothstep_claim_false_for_reversed_edges :
    ¬ ∀ e0 e1 t : ℚ, t ≤ e0 → smoothstep e0 e1 t = 0 := by
  intro h
  have h1 := h 1 0 0 (by norm_num)
  rw [smoothstep_def] at h1
  norm_num [qclamp] at h1

/-- C3, amended: for *increasing* edges `e0 < e1`, `smoothstep e0 e1 t`
lies in `[0,1]`, equals `0` for `t ≤ e0`, equals `1` for `t ≥ e1`, and
equals `1/2` at the midpoint `(e0+e1)/2`. -/
theorem smoothstep_props (e0 e1 t : ℚ) (h : e0 < e1) :
    (0 ≤ smoothstep e0 e1 t ∧ smoothstep e0 e1 t ≤ 1) ∧
    (t ≤ e0 → smoothstep e0 e1 t = 0) ∧
    (e1 ≤ t → smoothstep e0 e1 t = 1) ∧
    smoothstep e0 e1 ((e0 + e1) / 2) = 1 / 2 := by
  have hden : (0 : ℚ) < e1 - e0 := sub_pos.mpr h
  refine ⟨?_, ?_, ?_, ?_⟩
  · obtain ⟨h0, h1⟩ := qclamp_mem ((t - e0) / (e1 - e0)) 0 1 (by norm_num)
    rw [smoothstep_def]
    exact cubic_range _ h0 h1
  · intro ht
    have hx : (t - e0) / (e1 - e0) ≤ 0 :=
      div_nonpos_iff.mpr (Or.inr ⟨by linarith, by linarith⟩)
    rw [smoothstep_def, qclamp_of_le _ hx]
    ring
  · intro ht
    have hx : 1 ≤ (t - e0) / (e1 - e0) := (one_le_div hden).mpr (by linarith)
    rw [smoothstep_def, qclamp_of_ge _ hx]
    ring
  · have hx : ((e0 + e1) / 2 - e0) / (e1 - e0) = 1 / 2 := by
      rw [div_eq_iff (ne_of_gt hden)]
      ring
    rw [smoothstep_def, hx]
    norm_num [qclamp]

/-- C3 witness at the concrete increasing range `[0, 1]`. -/
theorem smoothstep_props_witness :
    (0 ≤ smoothstep 0 1 (1/4) ∧ smoothstep 0 1 (1/4) ≤ 1) ∧
    smoothstep 0 1 ((0 + 1) / 2) = 1 / 2 :=
  ⟨(smoothstep_props 0 1 (1/4) (by norm_num)).1,
   (smoothstep_props 0 1 (1/4) (by norm_num)).2.2.2⟩

/-- C4: blending with `α = 0` leaves a (byte-valid) destination pixel
unchanged, and blending a fully opaque source with `α = 1` replaces the
destination with the source color at alpha `255`. -/
theorem composite_over_zero_id_one_replaces (dst : Pixel) (src : Color)
    (hdst : dst.Valid) (hsrc : src.Valid) :
    composite_over dst src 0 = dst ∧
    (src.a = 255 → composite_over dst src 1 = ⟨src.r, src.g, src.b, 255⟩) :=
  ⟨(composite_over_zero_eq dst hdst).2 src,
   fun _ => composite_over_one_eq dst src hsrc⟩

/-- C4 witness at a concrete half-covered green destination and opaque
red source. -/
theorem composite_over_zero_id_one_replaces_witness :
    composite_over ⟨0, 200, 0, 100⟩ ⟨255, 0, 0, 255⟩ 0 = ⟨0, 200, 0, 100⟩ ∧
    composite_over ⟨0, 200, 0, 100⟩ ⟨255, 0, 0, 255⟩ 1 = ⟨255, 0, 0, 255⟩ :=
  ⟨(composite_over_zero_id_one_replaces ⟨0, 200, 0, 100⟩ ⟨255, 0, 0, 255⟩
      (by constructor <;> norm_num) (by constructor <;> norm_num)).1,
   (composite_over_zero_id_one_replaces ⟨0, 200, 0, 100⟩ ⟨255, 0, 0, 255⟩
      (by constructor <;> norm_num) (by constructor <;> norm_num)).2 rfl⟩

/-- C9: the compositing primitive is a total function, and whenever the
computed output alpha `out_a = α + dst_a·(1−α)` is `≤ 0` it returns the
destination unchanged, so the per-channel division by `out_a` is never
reached with a non-positive divisor. -/
theorem composite_over_guard_total (dst : Pixel) (src : Color) (alpha : ℚ)
    (h : alpha + (dst.a : ℚ) / 255 * (1 - alpha) ≤ 0) :
    composite_over dst src alpha = dst := by
  simp only [composite_over]
  rw [if_pos h]

/-- C9 witness: a fully transparent blend onto a fully transparent pixel. -/
theorem composite_over_guard_total_witness :
    composite_over ⟨0, 0, 0, 0⟩ ⟨255, 255, 255, 255⟩ 0 = ⟨0, 0, 0, 0⟩ :=
  composite_over_guard_total ⟨0, 0, 0, 0⟩ ⟨255, 255, 255, 255⟩ 0 (by norm_num)

-- ── layout lemmas ──────────────────────────────────────────────────────

theorem joinWords_cons_of_ne (w : String) (ws : List String) (h : ws ≠ []) :
    joinWords (w :: ws) = w ++ " " ++ joinWords ws := by
  cases ws with
  | nil => exact absurd rfl h
  | cons x xs => rfl

theorem append_ne_empty_left (a b : String) (h : a ≠ "") : a ++ b ≠ "" := by
  intro hc
  apply h
  apply String.ext
  have hd := congrArg String.data hc
  rw [String.data_append] at hd
  exact (List.append_eq_nil.mp hd).1

theorem joinWords_append_mid (a b : String) :
    ∀ xs ys : List String,
      joinWords (xs ++ (a ++ " " ++ b) :: ys) = joinWords (xs ++ a :: b :: ys) := by
  intro xs
  induction xs with
  | nil =>
    intro ys
    cases ys with
    | nil => rfl
    | cons y ys =>
      rw [List.nil_append, List.nil_append,
        joinWords_cons_of_ne (a ++ " " ++ b) (y :: ys) (by simp),
        joinWords_cons_of_ne a (b :: y :: ys) (by simp),
        joinWords_cons_of_ne b (y :: ys) (by simp)]
      simp [String.append_assoc]
  | cons x xs ih =>
    intro ys
    rw [List.cons_append, List.cons_append,
      joinWords_cons_of_ne _ _ (by simp),
      joinWords_cons_of_ne _ _ (by simp), ih]

theorem mem_wordsAux_ne_empty :
    ∀ (cs : List Char) (acc : List Char) (w : String),
      w ∈ wordsAux cs acc → w ≠ "" := by
  intro cs
  induction cs with
  | nil =>
    intro acc w hw
    unfold wordsAux at hw
    split_ifs at hw with h
    · exact absurd hw (List.not_mem_nil w)
    · rw [List.mem_singleton] at hw
      subst hw
      intro hc
      apply h
      have hd := congrArg String.data hc
      simp only [String.mk] at hd
      rw [List.isEmpty_iff]
      have : acc.reverse = [] := hd
      simpa using this
  | cons c cs ih =>
    intro acc w hw
    unfold wordsAux at hw
    split_ifs at hw with h1 h2
    · exact ih [] w hw
    · rcases List.mem_cons.mp hw with h | h
      · subst h
        intro hc
        apply h2
        have hd := congrArg String.data hc
        simp only [String.mk] at hd
        rw [List.isEmpty_iff]
        have : acc.reverse = [] := hd
        simpa using this
      · exact ih [] w h
    · exact ih (c :: acc) w hw

theorem mem_splitWhitespace_ne_empty (s : String) (w : String)
    (h : w ∈ splitWhitespace s) : w ≠ "" :=
  mem_wordsAux_ne_empty s.data [] w h

theorem wrap_loop_join (measure : String → ℚ) (opts : WrapOptions) (space_w : ℚ) :
    ∀ (ws : List String) (lines : List TextLine) (current : String) (current_w : ℚ),
      current ≠ "" → (∀ w ∈ ws, w ≠ "") →
      joinWords ((wrap_loop measure opts space_w lines current current_w ws).map
          TextLine.text)
        = joinWords (lines.map TextLine.text ++ current :: ws) := by
  intro ws
  induction ws with
  | nil =>
    intro lines current current_w hcur _
    simp only [wrap_loop]
    rw [if_neg hcur, List.map_append]
    rfl
  | cons word ws ih =>
    intro lines current current_w hcur hne
    have hword : word ≠ "" := hne word (List.mem_cons_self _ _)
    have hne' : ∀ w ∈ ws, w ≠ "" := fun w hw => hne w (List.mem_cons_of_mem _ hw)
    simp only [wrap_loop]
    rw [if_neg hcur]
    split_ifs with h1 h2
    · have hrec := ih lines (current ++ " " ++ word) (current_w + space_w + measure word)
        (append_ne_empty_left _ _ (append_ne_empty_left _ _ hcur)) hne'
      rw [hrec]
      exact joinWords_append_mid current word _ _
    · have hrec := ih (lines ++ [⟨current, current_w⟩]) word (measure word) hword hne'
      rw [hrec, List.map_append]
      simp only [List.map, List.append_assoc, List.cons_append, List.nil_append]
    · have hrec := ih lines (current ++ " " ++ word) (current_w + space_w + measure word)
        (append_ne_empty_left _ _ (append_ne_empty_left _ _ hcur)) hne'
      rw [hrec]
      exact joinWords_append_mid current word _ _

theorem wrap_loop_length (measure : String → ℚ) (opts : WrapOptions) (space_w : ℚ) :
    ∀ (ws : List String) (lines : List TextLine) (current : String) (current_w : ℚ),
      lines.length < opts.max_lines →
      (wrap_loop measure opts space_w lines current current_w ws).length ≤
        opts.max_lines := by
  intro ws
  induction ws with
  | nil =>
    intro lines current current_w hlen
    simp only [wrap_loop]
    split_ifs
    · exact le_of_lt hlen
    · rw [List.length_append]
      simpa using hlen
  | cons word ws ih =>
    intro lines current current_w hlen
    simp only [wrap_loop]
    split_ifs with h1 h2 h3
    · exact ih _ _ _ hlen
    · exact ih _ _ _ hlen
    · apply ih
      rw [List.length_append]
      simp only [List.length_singleton]
      omega
    · exact ih _ _ _ hlen

-- ── claim theorems for the layout engine ───────────────────────────────

/-- C5: `wrap_text` returns at most `max_lines` lines, and returns the
empty sequence when `max_lines = 0` or the input has no non-whitespace
content. -/
theorem wrap_text_bounds (font : FontHandle) (scale_px : ℚ) (text : String)
    (opts : WrapOptions) :
    (wrap_text font scale_px text opts).length ≤ opts.max_lines ∧
    (opts.max_lines = 0 → wrap_text font scale_px text opts = []) ∧
    (splitWhitespace text = [] → wrap_text font scale_px text opts = []) := by
  refine ⟨?_, ?_, ?_⟩
  · simp only [wrap_text]
    split_ifs with h1 h2
    · simp
    · simp
    · exact wrap_loop_length _ opts _ _ [] "" 0 (by simpa using Nat.pos_of_ne_zero h1)
  · intro h
    simp only [wrap_text]
    rw [if_pos h]
  · intro h
    simp only [wrap_text]
    split_ifs <;> rfl

/-- C5 witness: `max_lines = 0` yields no lines, and a three-word text at
`max_lines = 2` yields at most two lines. -/
theorem wrap_text_bounds_witness :
    wrap_text unitFont 28 "a" ⟨130, 0⟩ = [] ∧
    (wrap_text unitFont 28 "one two three" ⟨130, 2⟩).length ≤ 2 :=
  ⟨(wrap_text_bounds unitFont 28 "a" ⟨130, 0⟩).2.1 rfl,
   (wrap_text_bounds unitFont 28 "one two three" ⟨130, 2⟩).1⟩

/-- C2, counterexample: the claim quantifies over every `WrapOptions`, but
with `max_lines = 0` the output is empty while the input has a word, so
that word is dropped from the space-joined output. -/
theorem wrap_text_drops_words_at_zero_max_lines :
    ¬ (joinWords ((wrap_text unitFont 28 "a" ⟨130, 0⟩).map TextLine.text)
        = joinWords (splitWhitespace "a")) := by
  intro h
  have h1 : joinWords ((wrap_text unitFont 28 "a" ⟨130, 0⟩).map TextLine.text)
      = "" := rfl
  have h2 : joinWords (splitWhitespace "a") = "a" := rfl
  rw [h1, h2] at h
  exact absurd (congrArg String.data h) (by simp)

/-- C2, amended: for `max_lines ≥ 1`, the space-joined concatenation of
the texts of the lines returned by `wrap_text` equals the space-joined
concatenation of the whitespace-split input words — so no word is
dropped, including the words appended to the final line regardless of
overflow. -/
theorem wrap_text_no_word_dropped (font : FontHandle) (scale_px : ℚ)
    (text : String) (opts : WrapOptions) (h : 1 ≤ opts.max_lines) :
    joinWords ((wrap_text font scale_px text opts).map TextLine.text)
      = joinWords (splitWhitespace text) := by
  simp only [wrap_text]
  rw [if_neg (by omega)]
  cases hw : splitWhitespace text with
  | nil =>
    simp
  | cons w0 rest =>
    rw [if_neg (by simp)]
    have hw0 : w0 ≠ "" :=
      mem_splitWhitespace_ne_empty text w0 (by rw [hw]; exact List.mem_cons_self _ _)
    have hrest : ∀ w ∈ rest, w ≠ "" := by
      intro w hmem
      exact mem_splitWhitespace_ne_empty text w
        (by rw [hw]; exact List.mem_cons_of_mem _ hmem)
    simp only [wrap_loop, eq_self_iff_true, if_true]
    have hrec := wrap_loop_join (measure_line font scale_px) opts
      (measure_line font scale_px " ") rest [] ("" ++ w0)
      (measure_line font scale_px w0)
      (by rw [String.empty_append]; exact hw0) hrest
    rw [hrec, String.empty_append]
    rfl

/-- C2 witness at a concrete font, text and options. -/
theorem wrap_text_no_word_dropped_witness :
    joinWords ((wrap_text unitFont 28 "hi there" ⟨130, 3⟩).map TextLine.text)
      = joinWords (splitWhitespace "hi there") :=
  wrap_text_no_word_dropped unitFont 28 "hi there" ⟨130, 3⟩ (by norm_num)

-- ── text placement (`Canvas::draw_text`, `src/canvas.rs` 133-184) ──────

/-- C6: for nonempty lines, `draw_text` places the first baseline at
`ascent` (Top), `(canvas_h − total_h)/2 + ascent` (Center),
`canvas_h − (total_h − ascent)` (Bottom), and exactly `y` (Baseline y),
with `line_h = ascent − descent + font_line_gap + extra_gap` and
`total_h = ascent − descent + (lineCount−1)·line_h`. -/
theorem draw_text_first_baseline (canvas_w canvas_h : ℚ)
    (lines : List TextLine) (opts : TextOptions) (hne : lines ≠ []) :
    ∃ ps : List Placement,
      draw_text canvas_w canvas_h lines opts = Except.ok ps ∧
      ps.head?.map Placement.baseline_y = some (
        let sf := opts.font opts.size
        let line_h := sf.ascent - sf.descent + sf.line_gap + opts.line_gap
        let total_h := sf.ascent - sf.descent + ((lines.length : ℚ) - 1) * line_h
        match opts.v_align with
        | .top => sf.ascent
        | .center => (canvas_h - total_h) / 2 + sf.ascent
        | .bottom => canvas_h - (total_h - sf.ascent)
        | .baseline y => y) := by
  cases lines with
  | nil => exact absurd rfl hne
  | cons l ls =>
    simp only [draw_text]
    rw [if_neg (by simp)]
    refine ⟨_, rfl, ?_⟩
    rw [List.enum_cons]
    simp only [List.map_cons, List.head?_cons, Option.map_some]
    cases opts.v_align <;> simp

/-- C6 witness: Baseline(40) places the first baseline at exactly 40. -/
theorem draw_text_first_baseline_witness :
    ∃ ps : List Placement,
      draw_text 144 144 [⟨"hi", 10⟩] sampleOpts = Except.ok ps ∧
      ps.head?.map Placement.baseline_y = some 40 :=
  draw_text_first_baseline 144 144 [⟨"hi", 10⟩] sampleOpts (by simp)

/-- C10: `draw_text` returns `Ok` on every input; no code path produces
an `Err` despite the `Result` signature. -/
theorem draw_text_never_errs (canvas_w canvas_h : ℚ) (lines : List TextLine)
    (opts : TextOptions) :
    ∃ ps : List Placement,
      draw_text canvas_w canvas_h lines opts = Except.ok ps := by
  simp only [draw_text]
  split_ifs
  · exact ⟨[], rfl⟩
  · exact ⟨_, rfl⟩

-- ── SDF border geometry (`src/border.rs`) ──────────────────────────────

/-- C7: for the rounded-rect SDF centered at the canvas center with
half-extents half the canvas size (the configuration used by both border
renderers), the canvas center is at negative distance, any point strictly
outside both canvas extents is at positive distance, and a point exactly
on a straight (non-corner) edge has distance of magnitude `< 1` (in fact
exactly `0`). -/
theorem rrect_sdf_signs (w h r : ℝ) (hw0 : 0 < w) (hh0 : 0 < h)
    (hr0 : 0 ≤ r) (hrw : r ≤ w / 2) (hrh : r ≤ h / 2) :
    rrect_sdf (w / 2) (h / 2) (w / 2) (h / 2) (w / 2) (h / 2) r < 0 ∧
    (∀ px py : ℝ, w / 2 < |px - w / 2| → h / 2 < |py - h / 2| →
      0 < rrect_sdf px py (w / 2) (h / 2) (w / 2) (h / 2) r) ∧
    (∀ py : ℝ, |py - h / 2| ≤ h / 2 - r →
      |rrect_sdf w py (w / 2) (h / 2) (w / 2) (h / 2) r| < 1) := by
  refine ⟨?_, ?_, ?_⟩
  · simp only [rrect_sdf, hypot, sub_self, abs_zero]
    have hqx : (0 : ℝ) - w / 2 + r ≤ 0 := by linarith
    have hqy : (0 : ℝ) - h / 2 + r ≤ 0 := by linarith
    rw [max_eq_right hqx, max_eq_right hqy, min_eq_left hqx, min_eq_left hqy]
    have : Real.sqrt ((0 : ℝ) ^ 2 + (0 : ℝ) ^ 2) = 0 := by
      norm_num
    rw [this]
    have hlt : max (0 - w / 2 + r) (0 - h / 2 + r) < r :=
      max_lt (by linarith) (by linarith)
    linarith
  · intro px py hpx hpy
    simp only [rrect_sdf, hypot]
    have hqx : (0 : ℝ) < |px - w / 2| - w / 2 + r := by linarith
    have hqy : (0 : ℝ) < |py - h / 2| - h / 2 + r := by linarith
    rw [max_eq_left (le_of_lt hqx), max_eq_left (le_of_lt hqy),
      min_eq_right (le_of_lt hqx), min_eq_right (le_of_lt hqy), max_self]
    have hsq : |px - w / 2| - w / 2 + r ≤
        Real.sqrt ((|px - w / 2| - w / 2 + r) ^ 2 + (|py - h / 2| - h / 2 + r) ^ 2) := by
      rw [Real.le_sqrt (le_of_lt hqx) (by positivity)]
      nlinarith [sq_nonneg (|py - h / 2| - h / 2 + r)]
    have habs : w / 2 < |px - w / 2| := hpx
    have hr2 : r < |px - w / 2| - w / 2 + r := by linarith
    linarith
  · intro py hpy
    simp only [rrect_sdf, hypot]
    have hpxw : |w - w / 2| = w / 2 := by
      rw [show w - w / 2 = w / 2 from by ring, abs_of_pos (by linarith)]
    rw [hpxw]
    have hqx : w / 2 - w / 2 + r = r := by ring
    rw [hqx]
    have hqy : |py - h / 2| - h / 2 + r ≤ 0 := by linarith
    rw [max_eq_left hr0, max_eq_right hqy, min_eq_right hr0, min_eq_left hqy]
    have hzero : Real.sqrt (r ^ 2 + 0 ^ 2) = r := by
      rw [show r ^ 2 + (0 : ℝ) ^ 2 = r ^ 2 from by ring, Real.sqrt_sq hr0]
    rw [hzero]
    have : r + max 0 (|py - h / 2| - h / 2 + r) - r = 0 := by
      rw [max_eq_left hqy]
      ring
    rw [this]
    norm_num

/-- C7 witness on the 144×144 canvas with radius 8 (the repository's own
test configuration): center, the far point `(200, 200)`, and the point
`(144, 72)` on the straight right edge. -/
theorem rrect_sdf_signs_witness :
    rrect_sdf 72 72 72 72 72 72 8 < 0 ∧
    0 < rrect_sdf 200 200 72 72 72 72 8 ∧
    |rrect_sdf 144 72 72 72 72 72 8| < 1 := by
  obtain ⟨h1, h2, h3⟩ := rrect_sdf_signs 144 144 8 (by norm_num) (by norm_num)
    (by norm_num) (by norm_num) (by norm_num)
  have e : (144 : ℝ) / 2 = 72 := by norm_num
  rw [e] at h1 h2 h3
  refine ⟨h1, ?_, ?_⟩
  · exact h2 200 200 (by rw [abs_of_nonneg (by norm_num)]; norm_num)
      (by rw [abs_of_nonneg (by norm_num)]; norm_num)
  · exact h3 72 (by rw [sub_self, abs_zero]; norm_num)

-- ── vignette border (`Canvas::draw_vignette_border`) ───────────────────

/-- Closed form of the vignette alpha for a pixel at inward distance
`0 ≤ i ≤ width` from the boundary (`dist = −i`). -/
theorem vignette_alpha_eval (width peak : ℚ) (hw : 0 < width)
    (i : ℚ) (h0 : 0 ≤ i) (h1 : i ≤ width) :
    vignette_alpha width peak (-i) =
      peak * (1 - i / width) * (1 - i / width) := by
  simp only [vignette_alpha]
  rw [if_neg (by linarith), neg_neg, if_neg (by linarith)]
  have haa : smoothstep 1 0 (-i) = 1 := by
    rw [smoothstep_def]
    have hx : (1 : ℚ) ≤ (-i - 1) / (0 - 1) := by
      rw [show (-i - 1) / ((0 : ℚ) - 1) = i + 1 from by ring]
      linarith
    rw [qclamp_of_ge _ hx]
    norm_num
  have ht : qclamp (i / width) 0 1 = i / width := by
    unfold qclamp
    rw [max_eq_left (div_nonneg h0 (le_of_lt hw)),
      min_eq_left ((div_le_one hw).mpr h1)]
  rw [haa, ht]
  ring

/-- C8: for the Vignette border with fade width `w > 0`, the per-pixel
source alpha is monotonically non-increasing as the inset grows from `0`
to `w`, and is `0` (pixel untouched) for every inset beyond `w`. -/
theorem vignette_alpha_monotone (width peak : ℚ) (hw : 0 < width)
    (hp : 0 ≤ peak) :
    (∀ i1 i2 : ℚ, 0 ≤ i1 → i1 ≤ i2 → i2 ≤ width →
      vignette_alpha width peak (-i2) ≤ vignette_alpha width peak (-i1)) ∧
    (∀ i : ℚ, width < i → vignette_alpha width peak (-i) = 0) := by
  constructor
  · intro i1 i2 h0 h12 h2w
    rw [vignette_alpha_eval width peak hw i1 h0 (by linarith),
      vignette_alpha_eval width peak hw i2 (by linarith) h2w]
    have ha : 0 ≤ 1 - i2 / width := by
      have := (div_le_one hw).mpr h2w
      linarith
    have hab : 1 - i2 / width ≤ 1 - i1 / width := by
      have := (div_le_div_iff_of_pos_right hw).mpr h12
      linarith
    have hsq := mul_self_le_mul_self ha hab
    calc peak * (1 - i2 / width) * (1 - i2 / width)
        = peak * ((1 - i2 / width) * (1 - i2 / width)) := by ring
      _ ≤ peak * ((1 - i1 / width) * (1 - i1 / width)) :=
          mul_le_mul_of_nonneg_left hsq hp
      _ = peak * (1 - i1 / width) * (1 - i1 / width) := by ring
  · intro i hi
    simp only [vignette_alpha]
    rw [if_neg (by linarith), neg_neg, if_pos hi]

/-- C8 witness at fade width 4, peak alpha 1, insets 1 ≤ 2 within the
fade and inset 5 beyond it. -/
theorem vignette_alpha_monotone_witness :
    vignette_alpha 4 1 (-2) ≤ vignette_alpha 4 1 (-1) ∧
    vignette_alpha 4 1 (-5) = 0 :=
  ⟨(vignette_alpha_monotone 4 1 (by norm_num) (by norm_num)).1 1 2
      (by norm_num) (by norm_num) (by norm_num),
   (vignette_alpha_monotone 4 1 (by norm_num) (by norm_num)).2 5 (by norm_num)⟩

end Render
